import Mathlib

/-!
Shallow embedding of the draft-js fork's composition-resolution engine and
range codec, together with theorems checking the specification's claims.

Sources embedded:
* `src/component/utils/isKorean.js` — the regex-based script classifier;
* the range-list `isKorean` inside the legacy
  `src/component/handlers/composition/DraftEditorCompositionHandler.js`;
* `src/model/encoding/encodeEntityRanges.js`,
  `decodeEntityRanges.js`, `decodeInlineStyleRanges.js` — the range codec;
* the current `DraftEditorCompositionHandler` (unnamed source file) — the
  composition session state machine and its resolution step.
-/

set_option maxHeartbeats 1000000

/-- A JavaScript string, modelled as the list of its UTF-16 code units.
Every character used in this development lies in the Basic Multilingual
Plane, where UTF-16 code units and Unicode code points coincide, so a
`Char` faithfully represents one code unit. -/
abbrev JSString := List Char

/-- `s.charAt(i)` for a JS string: the one-character string at index `i`,
or the empty string when `i` is out of range (including negative `i`,
matching JavaScript's behaviour of returning `''` there). -/
def jsCharAt (s : JSString) (i : Int) : JSString :=
  if h : 0 ≤ i ∧ i.toNat < s.length then [s.get ⟨i.toNat, h.2⟩] else []

/-- `src/component/utils/isKorean.js`: membership of a single UTF-16 code
unit in the regex character class
`[ᄀ-ᇿ㄰-㆏가-힯ꥠ-꥿ힰ-퟿]`. -/
def isKoreanCode (c : Nat) : Bool :=
  (0x1100 ≤ c && c ≤ 0x11FF) || (0x3130 ≤ c && c ≤ 0x318F) ||
  (0xAC00 ≤ c && c ≤ 0xD7AF) || (0xA960 ≤ c && c ≤ 0xA97F) ||
  (0xD7B0 ≤ c && c ≤ 0xD7FF)

/-- `isKorean(char)` from `src/component/utils/isKorean.js`:
`KOREAN_UNICODE_RANGES.test(char)` — true iff some code unit of the
string matches the character class. -/
def isKorean (s : JSString) : Bool := s.any (fun ch => isKoreanCode ch.toNat)

/-- The `KOREAN_UNICODE_RANGES` array of inclusive ranges defined inside
the legacy `DraftEditorCompositionHandler.js`. -/
def legacyKoreanRanges : List (Nat × Nat) :=
  [(0xAC00, 0xD7A3), (0x1100, 0x11FF), (0x3130, 0x318F),
   (0xA960, 0xA97F), (0xD7B0, 0xD7FF)]

/-- The legacy handler's `isKorean(charCode)`:
`KOREAN_UNICODE_RANGES.find(range => charCode >= range[0] && charCode <= range[1])`,
used for its truthiness (`Array.prototype.find` returns `undefined`,
which is falsy, when nothing matches). -/
def legacyIsKorean (charCode : Nat) : Bool :=
  (legacyKoreanRanges.find? (fun r => r.1 ≤ charCode && charCode ≤ r.2)).isSome

theorem isKoreanCode_iff (c : Nat) :
    isKoreanCode c = true ↔
      (0x1100 ≤ c ∧ c ≤ 0x11FF) ∨ (0x3130 ≤ c ∧ c ≤ 0x318F) ∨
      (0xAC00 ≤ c ∧ c ≤ 0xD7AF) ∨ (0xA960 ≤ c ∧ c ≤ 0xA97F) ∨
      (0xD7B0 ≤ c ∧ c ≤ 0xD7FF) := by
  simp [isKoreanCode, Bool.or_eq_true, Bool.and_eq_true, decide_eq_true_eq, or_assoc]

theorem legacyIsKorean_iff (c : Nat) :
    legacyIsKorean c = true ↔
      (0xAC00 ≤ c ∧ c ≤ 0xD7A3) ∨ (0x1100 ≤ c ∧ c ≤ 0x11FF) ∨
      (0x3130 ≤ c ∧ c ≤ 0x318F) ∨ (0xA960 ≤ c ∧ c ≤ 0xA97F) ∨
      (0xD7B0 ≤ c ∧ c ≤ 0xD7FF) := by
  simp [legacyIsKorean, List.find?_isSome, legacyKoreanRanges]

/-- C3 counterexample: the code point immediately above the third range
`[AC00, D7AF]` still classifies as Korean (it is the lower boundary of the
fifth range `[D7B0, D7FF]`), refuting "the code points immediately
adjacent outside the range classify as non-composing-script (false)". -/
theorem isKorean_adjacent_outside_true :
    ¬(0xAC00 ≤ 0xD7AF + 1 ∧ 0xD7AF + 1 ≤ 0xD7AF) ∧
      isKoreanCode (0xD7AF + 1) = true := by decide

/-- C3 amended: `isKorean` returns true exactly on the five inclusive
ranges; both boundary code points of each range classify true, and each
code point immediately adjacent outside a range classifies false — except
at the junction of the contiguous ranges `[AC00, D7AF]` and `[D7B0, D7FF]`,
where the two adjacent-outside points `D7AF + 1 = D7B0` and `D7B0 - 1 = D7AF`
classify true. -/
theorem isKorean_boundary_classification :
    (∀ c : Nat, isKoreanCode c = true ↔
      (0x1100 ≤ c ∧ c ≤ 0x11FF) ∨ (0x3130 ≤ c ∧ c ≤ 0x318F) ∨
      (0xAC00 ≤ c ∧ c ≤ 0xD7AF) ∨ (0xA960 ≤ c ∧ c ≤ 0xA97F) ∨
      (0xD7B0 ≤ c ∧ c ≤ 0xD7FF)) ∧
    (isKoreanCode 0x1100 = true ∧ isKoreanCode 0x11FF = true ∧
     isKoreanCode 0x10FF = false ∧ isKoreanCode 0x1200 = false) ∧
    (isKoreanCode 0x3130 = true ∧ isKoreanCode 0x318F = true ∧
     isKoreanCode 0x312F = false ∧ isKoreanCode 0x3190 = false) ∧
    (isKoreanCode 0xAC00 = true ∧ isKoreanCode 0xD7AF = true ∧
     isKoreanCode 0xABFF = false ∧ isKoreanCode 0xD7B0 = true) ∧
    (isKoreanCode 0xA960 = true ∧ isKoreanCode 0xA97F = true ∧
     isKoreanCode 0xA95F = false ∧ isKoreanCode 0xA980 = false) ∧
    (isKoreanCode 0xD7B0 = true ∧ isKoreanCode 0xD7FF = true ∧
     isKoreanCode 0xD7AF = true ∧ isKoreanCode 0xD800 = false) := by
  refine ⟨isKoreanCode_iff, ?_⟩
  decide

/-- C10 counterexample: on code unit `D7A4` the regex classifier of the
utils module answers true (it lies in its range `[AC00, D7AF]`) while the
range-list classifier of the legacy handler answers false (its syllable
range stops at `D7A3`), so the two variants are not extensionally equal. -/
theorem isKorean_variants_disagree :
    isKoreanCode 0xD7A4 = true ∧ legacyIsKorean 0xD7A4 = false := by decide

/-- C10 amended: away from the code units `D7A4 … D7AF` (where the utils
regex ends its syllable range at `D7AF` but the legacy range list ends at
`D7A3`), the two classifier variants agree on every code unit. -/
theorem isKorean_variants_agree (c : Nat) (h : c < 0xD7A4 ∨ 0xD7AF < c) :
    isKoreanCode c = legacyIsKorean c := by
  cases h1 : isKoreanCode c with
  | true =>
      have hk := (isKoreanCode_iff c).mp h1
      have hl : legacyIsKorean c = true := by
        rw [legacyIsKorean_iff]
        omega
      exact hl.symm
  | false =>
      cases h2 : legacyIsKorean c with
      | true =>
          exfalso
          have hl := (legacyIsKorean_iff c).mp h2
          have hn : ¬ isKoreanCode c = true := by simp [h1]
          rw [isKoreanCode_iff] at hn
          omega
      | false => rfl

/-- Witness for the amended C10 at the concrete code unit `0x1100`. -/
theorem isKorean_variants_agree_witness :
    (0x1100 < 0xD7A4 ∨ 0xD7AF < 0x1100) ∧ isKoreanCode 0x1100 = legacyIsKorean 0x1100 :=
  ⟨Or.inl (by decide), isKorean_variants_agree 0x1100 (Or.inl (by decide))⟩

/-! ## Range codec -/

/-- A persisted inline style range: `{offset, length, style}`. -/
structure StyleRange where
  offset : Nat
  length : Nat
  style : String
deriving Repr, DecidableEq

/-- A persisted entity range: `{offset, length, key}` with the key already
interned to an integer id. -/
structure EntityRange where
  offset : Nat
  length : Nat
  key : Nat
deriving Repr, DecidableEq

/-- `OrderedSet.add` on an insertion-ordered set of style strings:
appends the element at the end when it is not yet present. -/
def orderedSetAdd (s : List String) (x : String) : List String :=
  if x ∈ s then s else s ++ [x]

/-- The `while (cursor < end)` loop body of `decodeInlineStyleRanges`,
with `n` the number of remaining iterations (`end - cursor`).  Reading
`styles[cursor]` past the end of the array yields `undefined` in
JavaScript, and calling `.add` on it throws a `TypeError`; that typed
failure is modelled as `none`. -/
def styleLoop : List (List String) → Nat → Nat → String → Option (List (List String))
  | styles, _, 0, _ => some styles
  | styles, cursor, n + 1, style =>
    match styles.get? cursor with
    | none => none
    | some slot => styleLoop (styles.set cursor (orderedSetAdd slot style)) (cursor + 1) n style

/-- `decodeInlineStyleRanges(text, ranges)` from
`src/model/encoding/decodeInlineStyleRanges.js`: allocate
`Array(text.length).fill(EMPTY_SET)` and, for each range, add its style to
every slot in `[offset, offset + length)`.  A thrown `TypeError` (from a
write past the array bound) aborts the whole call, modelled by the
`Option` failure propagating through `foldlM`. -/
def decodeInlineStyleRanges (text : JSString) (ranges : List StyleRange) :
    Option (List (List String)) :=
  ranges.foldlM
    (fun styles r => styleLoop styles r.offset r.length r.style)
    (List.replicate text.length ([] : List String))

/-- A JavaScript array element assignment `arr[i] = v` on an array of
(possibly null) entity keys: in bounds it overwrites the slot; past the
end it grows the array to length `i + 1`, the intervening holes reading
back as `undefined` (modelled, like `null`, as `none`). -/
def jsSet (arr : List (Option Nat)) (i : Nat) (v : Nat) : List (Option Nat) :=
  if i < arr.length then arr.set i (some v)
  else arr ++ List.replicate (i - arr.length) none ++ [some v]

/-- The `for (var ii = start; ii < end; ii++) entities[ii] = range.key`
loop of `decodeEntityRanges`, with `n` the number of remaining iterations. -/
def fillCount : List (Option Nat) → Nat → Nat → Nat → List (Option Nat)
  | arr, _, 0, _ => arr
  | arr, i, n + 1, v => fillCount (jsSet arr i v) (i + 1) n v

/-- `decodeEntityRanges(text, ranges)` from
`src/model/encoding/decodeEntityRanges.js`: allocate
`Array(text.length).fill(null)` and, for each range, assign its key to
every slot in `[offset, offset + length)` (last write wins). -/
def decodeEntityRanges (text : JSString) (ranges : List EntityRange) :
    List (Option Nat) :=
  ranges.foldl (fun arr r => fillCount arr r.offset r.length r.key)
    (List.replicate text.length (none : Option Nat))

/-- A content block as the entity codec reads it: its text and, for each
indexing unit, the optional entity key at that position
(`block.getEntityAt(i)`). -/
structure ContentBlock where
  text : JSString
  entityAt : List (Option String)
deriving Repr, DecidableEq

/-- Modelled from the spec: `ContentBlock.findEntityRanges` with the
filter `character => !!character.getEntity()` (the method itself lives
outside the provided sources).  Per the spec it scans the per-unit entity
array in ascending position order and yields the maximal runs
`(start, end)` on which every slot holds the same non-null entity key.
`i` is the absolute index of the head of `ents`. -/
def findEntityRuns : Nat → List (Option String) → List (Nat × Nat)
  | _, [] => []
  | i, none :: rest => findEntityRuns (i + 1) rest
  | i, some k :: rest =>
    (i, i + 1 + (rest.takeWhile (fun e => e == some k)).length) ::
      findEntityRuns (i + 1 + (rest.takeWhile (fun e => e == some k)).length)
        (rest.dropWhile (fun e => e == some k))
termination_by _ l => l.length
decreasing_by
  all_goals simp_wf
  all_goals first
    | omega
    | (have hsub : List.Sublist (rest.dropWhile (fun e => e == some k)) rest :=
         List.dropWhile_sublist _
       have := hsub.length_le
       omega)

/-- `block.getEntityAt(start)`: the per-unit entity key at a position
(`null`, i.e. `none`, when out of range). -/
def ContentBlock.getEntityAt (block : ContentBlock) (i : Nat) : Option String :=
  block.entityAt.getD i none

/-- `encodeEntityRanges(block, storageMap)` from
`src/model/encoding/encodeEntityRanges.js`.  For each entity run
`(start, end)` it emits `{offset: text.slice(0, start).length,
length: text.slice(start, end).length, key: Number(storageMap[DraftStringKey.stringify(key)])}`.
`storageMap` here is the composite of `DraftStringKey.stringify` (which
lives outside the provided sources) and the persisted-id lookup: the
key-interning map from an optional entity key to its compact integer id. -/
def encodeEntityRanges (block : ContentBlock) (storageMap : Option String → Nat) :
    List EntityRange :=
  (findEntityRuns 0 block.entityAt).map fun r =>
    { offset := ((block.text.drop 0).take r.1).length
      length := ((block.text.drop r.1).take (r.2 - r.1)).length
      key := storageMap (block.getEntityAt r.1) }

/-! ## C2: bounds behaviour of the two decoders -/

theorem styleLoop_eq_none_iff (st : String) :
    ∀ (n : Nat) (styles : List (List String)) (c : Nat),
      styleLoop styles c n st = none ↔ 0 < n ∧ styles.length < c + n := by
  intro n
  induction n with
  | zero => intro styles c; simp [styleLoop]
  | succ n ih =>
      intro styles c
      rw [styleLoop]
      cases hc : styles.get? c with
      | none =>
          have hlen : styles.length ≤ c := List.get?_eq_none.mp hc
          simp only []
          constructor
          · intro _; omega
          · intro _; trivial
      | some slot =>
          have hlt : c < styles.length := by
            rcases List.get?_eq_some.mp hc with ⟨h, _⟩
            exact h
          simp only []
          rw [ih]
          simp only [List.length_set]
          omega

theorem styleLoop_length (st : String) :
    ∀ (n : Nat) (styles out : List (List String)) (c : Nat),
      styleLoop styles c n st = some out → out.length = styles.length := by
  intro n
  induction n with
  | zero =>
      intro styles out c h
      simp [styleLoop] at h
      simp [h]
  | succ n ih =>
      intro styles out c h
      rw [styleLoop] at h
      cases hc : styles.get? c with
      | none => rw [hc] at h; exact absurd h (by simp)
      | some slot =>
          rw [hc] at h
          have := ih _ _ _ h
          simpa [List.length_set] using this

theorem decodeStyleFold_spec :
    ∀ (ranges : List StyleRange) (styles : List (List String)),
      (List.foldlM (fun s (r : StyleRange) => styleLoop s r.offset r.length r.style)
          styles ranges = none ↔
        ∃ r ∈ ranges, 0 < r.length ∧ styles.length < r.offset + r.length) ∧
      (∀ out, List.foldlM (fun s (r : StyleRange) => styleLoop s r.offset r.length r.style)
          styles ranges = some out → out.length = styles.length) := by
  intro ranges
  induction ranges with
  | nil =>
      intro styles
      constructor
      · simp [List.foldlM]
      · intro out h
        simp [List.foldlM] at h
        simp [h]
  | cons r rs ih =>
      intro styles
      rw [List.foldlM_cons]
      cases hstep : styleLoop styles r.offset r.length r.style with
      | none =>
          have hr := (styleLoop_eq_none_iff r.style r.length styles r.offset).mp hstep
          constructor
          · simp only [Option.bind_eq_bind, Option.none_bind]
            constructor
            · intro _; exact ⟨r, List.mem_cons_self r rs, hr⟩
            · intro _; trivial
          · intro out h
            simp at h
      | some s' =>
          have hnot : ¬ (0 < r.length ∧ styles.length < r.offset + r.length) := by
            intro hcon
            have := (styleLoop_eq_none_iff r.style r.length styles r.offset).mpr hcon
            rw [this] at hstep
            exact Option.noConfusion hstep
          have hlen : s'.length = styles.length := styleLoop_length r.style _ _ _ _ hstep
          constructor
          · simp only [Option.bind_eq_bind, Option.some_bind]
            rw [(ih s').1, hlen]
            constructor
            · rintro ⟨r', hmem, hcond⟩
              exact ⟨r', List.mem_cons_of_mem r hmem, hcond⟩
            · rintro ⟨r', hmem, hcond⟩
              rcases List.mem_cons.mp hmem with heq | hmem'
              · exact absurd (heq ▸ hcond) hnot
              · exact ⟨r', hmem', hcond⟩
          · intro out h
            simp only [Option.bind_eq_bind, Option.some_bind] at h
            rw [(ih s').2 out h, hlen]

/-- C2 amended (style decoder part): `decodeInlineStyleRanges` fails with
a typed error (the JavaScript `TypeError` from touching a slot past the
array bound, modelled as `none`) exactly when some range makes at least
one write at an index at or beyond the unit count of the text; and when
it succeeds, the returned per-unit array has exactly the unit count of
the text — never more. -/
theorem decodeInlineStyleRanges_bounds (text : JSString) (ranges : List StyleRange) :
    (decodeInlineStyleRanges text ranges = none ↔
      ∃ r ∈ ranges, 0 < r.length ∧ text.length < r.offset + r.length) ∧
    (∀ styles, decodeInlineStyleRanges text ranges = some styles →
      styles.length = text.length) := by
  have h := decodeStyleFold_spec ranges (List.replicate text.length ([] : List String))
  rw [List.length_replicate] at h
  exact ⟨h.1, h.2⟩

/-- Witness for `decodeInlineStyleRanges_bounds`: on the two-unit text
`"ab"` with the out-of-bounds range `{offset: 1, length: 3}` the decoder
fails, and on the in-bounds range `{offset: 0, length: 2}` it returns a
two-slot array. -/
theorem decodeInlineStyleRanges_bounds_witness :
    decodeInlineStyleRanges ['a', 'b'] [⟨1, 3, "B"⟩] = none ∧
    ∀ styles, decodeInlineStyleRanges ['a', 'b'] [⟨0, 2, "B"⟩] = some styles →
      styles.length = 2 :=
  ⟨(decodeInlineStyleRanges_bounds ['a', 'b'] [⟨1, 3, "B"⟩]).1.mpr
      ⟨⟨1, 3, "B"⟩, by decide, by decide, by decide⟩,
    fun styles h => (decodeInlineStyleRanges_bounds ['a', 'b'] [⟨0, 2, "B"⟩]).2 styles h⟩

/-- C2 counterexample: `decodeEntityRanges` does not reject a range whose
`offset + length` exceeds the unit count of the text — it silently grows
the array past the bound, returning a four-slot array for a two-unit
text, so the claim that both decoders reject with a bounds-violation
error (and never return an array longer than the unit count) is false. -/
theorem decodeEntityRanges_writes_out_of_bounds :
    decodeEntityRanges ['a', 'b'] [⟨1, 3, 7⟩] = [none, some 7, some 7, some 7] ∧
    (['a', 'b'] : JSString).length < (decodeEntityRanges ['a', 'b'] [⟨1, 3, 7⟩]).length := by
  constructor
  · rfl
  · decide

/-! ## C1: entity-range codec round trip -/

theorem map_const_of_all_eq {α β : Type} (g : α → β) (a : α) :
    ∀ l : List α, (∀ x ∈ l, x = a) → l.map g = List.replicate l.length (g a) := by
  intro l
  induction l with
  | nil => intro _; rfl
  | cons x xs ih =>
      intro h
      have hx : x = a := h x (List.mem_cons_self x xs)
      have hxs := ih (fun y hy => h y (List.mem_cons_of_mem x hy))
      simp [hx, hxs, List.replicate_succ]

theorem fillCount_spec (v : Nat) :
    ∀ (n : Nat) (arr : List (Option Nat)) (i : Nat), i + n ≤ arr.length →
      fillCount arr i n v =
        arr.take i ++ List.replicate n (some v) ++ arr.drop (i + n) := by
  intro n
  induction n with
  | zero =>
      intro arr i _
      simp [fillCount, List.take_append_drop]
  | succ n ih =>
      intro arr i hle
      have hi : i < arr.length := by omega
      rw [fillCount]
      have hset : jsSet arr i v = arr.set i (some v) := by
        simp [jsSet, hi]
      rw [hset]
      have hlen' : (i + 1) + n ≤ (arr.set i (some v)).length := by
        simp [List.length_set]; omega
      rw [ih _ _ hlen']
      rw [List.set_eq_take_append_cons_drop]
      rw [if_pos hi]
      have htake : (arr.take i ++ some v :: arr.drop (i + 1)).take (i + 1) =
          arr.take i ++ [some v] := by
        rw [List.take_append_eq_append_take]
        have h1 : (arr.take i).length = i := by
          simp [List.length_take]; omega
        rw [h1]
        have h2 : (arr.take i).take (i + 1) = arr.take i :=
          List.take_of_length_le (by omega)
        have h3 : i + 1 - i = 1 := by omega
        rw [h2, h3]
        rfl
      have hdrop : (arr.take i ++ some v :: arr.drop (i + 1)).drop (i + 1 + n) =
          arr.drop (i + (n + 1)) := by
        have h1 : (arr.take i).length = i := by
          simp [List.length_take]; omega
        have h2 : i + 1 + n = (arr.take i).length + (1 + n) := by omega
        rw [h2, List.drop_append]
        have h3 : (some v :: arr.drop (i + 1)).drop (1 + n) = (arr.drop (i + 1)).drop n := by
          have : 1 + n = n + 1 := by omega
          rw [this]
          rfl
        rw [h3, List.drop_drop]
        congr 1
        omega
      rw [htake, hdrop]
      simp [List.replicate_succ, List.append_assoc]

theorem decode_encode_runs (storageMap : Option String → Nat) (text : JSString)
    (ents0 : List (Option String)) (hts : ents0.length = text.length) :
    ∀ (N : Nat) (ents : List (Option String)), ents.length ≤ N →
      ∀ (i : Nat) (arr : List (Option Nat)),
        ents0.drop i = ents → i + ents.length = ents0.length →
        arr.length = ents0.length →
        (∀ j, i ≤ j → arr.getD j none = none) →
        List.foldl (fun a (r : EntityRange) => fillCount a r.offset r.length r.key) arr
          ((findEntityRuns i ents).map fun r =>
            ({ offset := ((text.drop 0).take r.1).length
               length := ((text.drop r.1).take (r.2 - r.1)).length
               key := storageMap (ents0.getD r.1 none) } : EntityRange)) =
        arr.take i ++ ents.map (Option.map fun k => storageMap (some k)) := by
  intro N
  induction N with
  | zero =>
      intro ents hlen i arr hdrop hsum harr hnone
      have hnil : ents = [] := List.length_eq_zero.mp (Nat.le_zero.mp hlen)
      subst hnil
      simp only [findEntityRuns, List.map_nil, List.foldl_nil, List.append_nil]
      exact (List.take_of_length_le (by omega)).symm
  | succ N ihN =>
      intro ents hlen i arr hdrop hsum harr hnone
      cases ents with
      | nil =>
          simp only [findEntityRuns, List.map_nil, List.foldl_nil, List.map_nil,
            List.append_nil]
          simp only [List.length_nil] at hsum
          exact (List.take_of_length_le (by omega)).symm
      | cons e rest =>
        have hi : i < ents0.length := by
          simp only [List.length_cons] at hsum
          omega
        have hiarr : i < arr.length := by omega
        have hgetE : ents0[i]? = some e := by
          have h0 : (ents0.drop i)[0]? = some e := by rw [hdrop]; simp
          rw [List.getElem?_drop] at h0
          simpa using h0
        have hdrop1 : ents0.drop (i + 1) = rest := by
          have h1 : (ents0.drop i).drop 1 = rest := by rw [hdrop]; rfl
          rwa [List.drop_drop] at h1
        have hxi : arr[i]? = some none := by
          have h1 := hnone i le_rfl
          rw [List.getD_eq_getElem?_getD, List.getElem?_eq_getElem hiarr] at h1
          rw [List.getElem?_eq_getElem hiarr]
          simp only [Option.getD_some] at h1
          rw [h1]
        cases e with
        | none =>
            rw [findEntityRuns]
            have hres := ihN rest (by
                simp only [List.length_cons] at hlen; omega)
              (i + 1) arr hdrop1 (by
                simp only [List.length_cons] at hsum ⊢; omega) harr
              (fun j hj => hnone j (by omega))
            rw [hres]
            have htake : arr.take (i + 1) = arr.take i ++ [(none : Option Nat)] := by
              rw [List.take_succ, hxi]
              rfl
            rw [htake]
            simp [List.append_assoc]
        | some k =>
            rw [findEntityRuns]
            have hsplit : rest.takeWhile (fun e => e == some k) ++
                rest.dropWhile (fun e => e == some k) = rest :=
              List.takeWhile_append_dropWhile _ _
            have hlenrest : (rest.takeWhile (fun e => e == some k)).length +
                (rest.dropWhile (fun e => e == some k)).length = rest.length := by
              have hc := congrArg List.length hsplit
              rw [List.length_append] at hc
              exact hc
            have hn : (rest.takeWhile (fun e => e == some k)).length ≤ rest.length := by
              omega
            have hsum' : i + (rest.length + 1) = ents0.length := by
              simpa using hsum
            have hkey : ents0.getD i none = some k := by
              rw [List.getD_eq_getElem?_getD, hgetE]
              rfl
            have hoff : ((text.drop 0).take i).length = i := by
              simp only [List.drop_zero, List.length_take]
              omega
            have harith : i + 1 + (rest.takeWhile (fun e => e == some k)).length - i =
                (rest.takeWhile (fun e => e == some k)).length + 1 := by omega
            have hlenf : ((text.drop i).take
                (i + 1 + (rest.takeWhile (fun e => e == some k)).length - i)).length =
                (rest.takeWhile (fun e => e == some k)).length + 1 := by
              rw [harith]
              simp only [List.length_take, List.length_drop]
              omega
            rw [List.map_cons, List.foldl_cons]
            simp only [hoff, hlenf, hkey]
            rw [fillCount_spec (storageMap (some k))
              ((rest.takeWhile (fun e => e == some k)).length + 1) arr i (by omega)]
            have haux : ∀ (t d l : List (Option String)), t ++ d = l →
                l.drop t.length = d := by
              intro t d l h
              subst h
              exact List.drop_left _ _
            have hdropn : ents0.drop (i + 1 + (rest.takeWhile (fun e => e == some k)).length) =
                rest.dropWhile (fun e => e == some k) := by
              have h1 : (ents0.drop (i + 1)).drop
                  (rest.takeWhile (fun e => e == some k)).length =
                  ents0.drop (i + 1 + (rest.takeWhile (fun e => e == some k)).length) :=
                List.drop_drop _ _ _
              rw [← h1, hdrop1]
              exact haux _ _ _ hsplit
            have harr' : (arr.take i ++
                List.replicate ((rest.takeWhile (fun e => e == some k)).length + 1)
                  (some (storageMap (some k))) ++
                arr.drop (i + ((rest.takeWhile (fun e => e == some k)).length + 1))).length =
                ents0.length := by
              simp only [List.length_append, List.length_take, List.length_replicate,
                List.length_drop]
              omega
            have hlenAB : (arr.take i ++
                List.replicate ((rest.takeWhile (fun e => e == some k)).length + 1)
                  (some (storageMap (some k)))).length =
                i + ((rest.takeWhile (fun e => e == some k)).length + 1) := by
              simp only [List.length_append, List.length_take, List.length_replicate]
              omega
            have hnone' : ∀ j, i + 1 + (rest.takeWhile (fun e => e == some k)).length ≤ j →
                (arr.take i ++
                  List.replicate ((rest.takeWhile (fun e => e == some k)).length + 1)
                    (some (storageMap (some k))) ++
                  arr.drop (i + ((rest.takeWhile (fun e => e == some k)).length + 1))).getD
                  j none = none := by
              intro j hj
              rw [List.getD_eq_getElem?_getD]
              rw [List.getElem?_append_right (by rw [hlenAB]; omega)]
              rw [hlenAB, List.getElem?_drop]
              have hidx : i + ((rest.takeWhile (fun e => e == some k)).length + 1) +
                  (j - (i + ((rest.takeWhile (fun e => e == some k)).length + 1))) = j := by
                omega
              rw [hidx]
              have h2 := hnone j (by omega)
              rwa [List.getD_eq_getElem?_getD] at h2
            have hres := ihN (rest.dropWhile (fun e => e == some k)) (by
                simp only [List.length_cons] at hlen
                omega)
              (i + 1 + (rest.takeWhile (fun e => e == some k)).length) _ hdropn
              (by omega) harr' hnone'
            rw [hres]
            have htakeAB : (arr.take i ++
                List.replicate ((rest.takeWhile (fun e => e == some k)).length + 1)
                  (some (storageMap (some k))) ++
                arr.drop (i + ((rest.takeWhile (fun e => e == some k)).length + 1))).take
                (i + 1 + (rest.takeWhile (fun e => e == some k)).length) =
                arr.take i ++
                  List.replicate ((rest.takeWhile (fun e => e == some k)).length + 1)
                    (some (storageMap (some k))) := by
              have heq : i + 1 + (rest.takeWhile (fun e => e == some k)).length =
                  (arr.take i ++
                    List.replicate ((rest.takeWhile (fun e => e == some k)).length + 1)
                      (some (storageMap (some k)))).length := by
                rw [hlenAB]; omega
              rw [heq]
              exact List.take_left _ _
            rw [htakeAB]
            have hrunmap : (rest.takeWhile (fun e => e == some k)).map
                (Option.map fun k => storageMap (some k)) =
                List.replicate ((rest.takeWhile (fun e => e == some k)).length)
                  (some (storageMap (some k))) := by
              have hall : ∀ x ∈ rest.takeWhile (fun e => e == some k), x = some k := by
                intro x hx
                have := List.mem_takeWhile_imp hx
                exact eq_of_beq this
              exact map_const_of_all_eq _ (some k) _ hall
            have hmaprest : rest.map (Option.map fun k => storageMap (some k)) =
                List.replicate ((rest.takeWhile (fun e => e == some k)).length)
                  (some (storageMap (some k))) ++
                (rest.dropWhile (fun e => e == some k)).map
                  (Option.map fun k => storageMap (some k)) := by
              conv_lhs => rw [← hsplit]
              rw [List.map_append, hrunmap]
            rw [List.map_cons, hmaprest]
            simp [List.replicate_succ, List.append_assoc]

/-- C1: entity-range codec round trip.  For a block whose per-unit entity
array has one (optional) entry per unit of its text, decoding the output
of `encodeEntityRanges` over the block's text yields exactly the block's
per-unit entity array with the key-interning map applied to each
assigned slot. -/
theorem decode_encode_entityRanges (block : ContentBlock)
    (storageMap : Option String → Nat)
    (hlen : block.entityAt.length = block.text.length) :
    decodeEntityRanges block.text (encodeEntityRanges block storageMap) =
      block.entityAt.map (Option.map fun k => storageMap (some k)) := by
  have hnone0 : ∀ j, 0 ≤ j →
      (List.replicate block.text.length (none : Option Nat)).getD j none = none := by
    intro j _
    rw [List.getD_eq_getElem?_getD, List.getElem?_replicate]
    split <;> rfl
  have h := decode_encode_runs storageMap block.text block.entityAt hlen
      block.entityAt.length block.entityAt le_rfl 0
      (List.replicate block.text.length none) (List.drop_zero _) (by omega)
      (by simp [hlen]) hnone0
  unfold decodeEntityRanges encodeEntityRanges
  simp only [ContentBlock.getEntityAt]
  simpa using h

/-- Witness for the round trip on a concrete block: a four-unit text with
entity keys `[null, "x", "x", "y"]` and an interning map sending `"x"` to
`5` and `"y"` to `9` decodes back to `[null, 5, 5, 9]`. -/
theorem decode_encode_entityRanges_witness :
    decodeEntityRanges ['a', 'b', 'c', 'd']
        (encodeEntityRanges
          ⟨['a', 'b', 'c', 'd'], [none, some "x", some "x", some "y"]⟩
          (fun e => if e = some "x" then 5 else if e = some "y" then 9 else 0)) =
      [none, some 5, some 5, some 9] := by
  have h := decode_encode_entityRanges
      ⟨['a', 'b', 'c', 'd'], [none, some "x", some "x", some "y"]⟩
      (fun e => if e = some "x" then 5 else if e = some "y" then 9 else 0)
      (by decide)
  rw [h]
  decide

/-! ## Composition session state machine (current handler) -/

/-- The ambient platform flags the handler queries through `UserAgent`. -/
structure Platform where
  isIE : Bool
  isEdge : Bool
  isWin10 : Bool
  isAndroid7 : Bool
deriving Repr, DecidableEq

/-- The DOM selection as read through `global.getSelection()`: the text
content of the anchor node and the anchor offset within it. -/
structure DomSelection where
  anchorText : JSString
  anchorOffset : Nat
deriving Repr, DecidableEq

/-- An editor selection as the handler reads it: `getAnchorOffset()`,
`getFocusOffset()` and the result of `isCollapsed()`.
`merge({anchorOffset})` updates only the anchor offset; the stored
`collapsed` field is the value `isCollapsed()` returned when the
selection was read and is never consulted on a merged selection by the
embedded code. -/
structure Selection where
  anchorOffset : Int
  focusOffset : Int
  collapsed : Bool
deriving Repr, DecidableEq

/-- The module-level mutable variables of the current
`DraftEditorCompositionHandler`.  The captured
`anchorNodeAtCompositionStart` is modelled by supplying that node's
current `textContent` as the `startNodeText` parameter of
`onCompositionEnd`; `offsetAtCompositionStart` is a JS number, or `null`
(`none`) after a resolve. -/
structure CompositionState where
  resolved : Bool
  initial : Bool
  stillComposing : Bool
  textInputData : JSString
  formerTextInputData : JSString
  isKoreanOnIE : Bool
  offsetAtCompositionStart : Option Int
  lastKoreanCharacter : JSString
  nextToLastKoreanCharacter : JSString
  charInCompStart : JSString
  charInCompUpdate : JSString
deriving Repr, DecidableEq

/-- The initial values of the module-level variables. -/
def CompositionState.init : CompositionState :=
  { resolved := false
    initial := true
    stillComposing := false
    textInputData := []
    formerTextInputData := []
    isKoreanOnIE := false
    offsetAtCompositionStart := some 0
    lastKoreanCharacter := []
    nextToLastKoreanCharacter := []
    charInCompStart := []
    charInCompUpdate := [] }

/-- The document-model collaborators (`DraftModifier.removeRange`,
`DraftModifier.replaceText`, `contentState.getSelectionAfter()`) as
abstract operations over an opaque document type. -/
structure DocOps (Doc : Type) where
  removeRange : Doc → Selection → String → Doc
  getSelectionAfter : Doc → Selection
  replaceText : Doc → Selection → JSString → List String → Option String → Doc

/-- The editor-state fields `resolveComposition` reads from `this.props`
and through the model helpers. -/
structure EditorProps (Doc : Type) where
  doc : Doc
  selection : Selection
  currentStyle : List String
  entityKey : Option String
  selectionAtLeafStart : Bool
  previousSelection : Option Selection

/-- Outbound calls the handler makes on the host and on the document
model, recorded in the order they are issued. -/
inductive HostAction (Doc : Type) where
  | preventDefault
  | restoreEditorDOM (key : String)
  | exitCurrentMode
  | removeRenderGuard
  | removeRange (sel : Selection) (direction : String)
  | replaceText (sel : Selection) (chars : JSString) (style : List String)
      (entity : Option String)
  | commit (changeType : String) (doc : Doc)
  | resyncUpdate
deriving DecidableEq

/-- The `mustReset` disjunction computed by `resolveComposition`:
`!composedChars || isSelectionAtLeafStart(editorState) ||
currentStyle.size > 0 || entityKey !== null`. -/
def mustResetFlag {Doc : Type} (props : EditorProps Doc)
    (composedChars : JSString) : Bool :=
  composedChars.isEmpty || props.selectionAtLeafStart ||
    decide (0 < props.currentStyle.length) || props.entityKey.isSome

/-- `resolveComposition(editorChangeType)` of the current handler.
Returns the updated module state and the ordered list of outbound calls;
document values are threaded through `ops`. -/
def resolveComposition {Doc : Type} (p : Platform) (ops : DocOps Doc)
    (props : EditorProps Doc) (s : CompositionState)
    (editorChangeType : String) :
    CompositionState × List (HostAction Doc) :=
  if s.stillComposing then (s, [])
  else
    let wasKoreanOnIE := s.isKoreanOnIE
    let composedChars := s.textInputData
    let formerComposedChars := s.formerTextInputData
    let s' : CompositionState :=
      { s with
        resolved := true
        initial := true
        isKoreanOnIE := false
        lastKoreanCharacter := []
        nextToLastKoreanCharacter := []
        offsetAtCompositionStart := none
        textInputData := []
        formerTextInputData := [] }
    let mustReset := mustResetFlag props composedChars
    let acts0 : List (HostAction Doc) :=
      if mustReset then
        [HostAction.restoreEditorDOM
          (if 0 < composedChars.length then "contentsKey" else "containerKey")]
      else []
    let acts1 := acts0 ++ [HostAction.exitCurrentMode, HostAction.removeRenderGuard]
    let step :=
      if !wasKoreanOnIE && !formerComposedChars.isEmpty && props.selection.collapsed then
        let a0 := props.selection.anchorOffset - (formerComposedChars.length : Int)
        let anchorOffset := if a0 < 0 then 0 else a0
        let toRemoveSel := { props.selection with anchorOffset := anchorOffset }
        let c := ops.removeRange props.doc toRemoveSel "backward"
        (c, ops.getSelectionAfter c,
          acts1 ++ [HostAction.removeRange toRemoveSel "backward"])
      else (props.doc, props.selection, acts1)
    if !composedChars.isEmpty then
      let target :=
        if wasKoreanOnIE && !p.isWin10 && props.previousSelection.isSome then
          props.previousSelection.getD step.2.1
        else step.2.1
      let c2 := ops.replaceText step.1 target composedChars
        props.currentStyle props.entityKey
      (s', step.2.2 ++
        [HostAction.replaceText target composedChars props.currentStyle props.entityKey,
         HostAction.commit editorChangeType c2])
    else if mustReset then (s', step.2.2 ++ [HostAction.resyncUpdate])
    else (s', step.2.2)

/-- The deferred callback scheduled by `onCompositionEnd`:
`if (!resolved) resolveComposition('insert-characters')`. -/
def fireDeferred {Doc : Type} (p : Platform) (ops : DocOps Doc)
    (props : EditorProps Doc) (s : CompositionState) :
    CompositionState × List (HostAction Doc) :=
  if !s.resolved then resolveComposition p ops props s "insert-characters"
  else (s, [])

/-- `onBlur(e)`: terminate the session with whatever data is available
and resolve immediately with change type `'commit-blurred-composition'`. -/
def onBlur {Doc : Type} (p : Platform) (ops : DocOps Doc)
    (props : EditorProps Doc) (s : CompositionState) :
    CompositionState × List (HostAction Doc) :=
  let s1 := { s with
    stillComposing := false
    textInputData := s.textInputData ++ s.charInCompUpdate }
  let r := resolveComposition p ops props s1 "commit-blurred-composition"
  (r.1, HostAction.preventDefault :: r.2)

/-- `onCompositionStart(e)`.  `dom` is `global.getSelection()` at the time
of the event (consulted only when `isIE`). -/
def onCompositionStart (p : Platform) (dom : DomSelection)
    (s : CompositionState) (data : JSString) : CompositionState :=
  let s1 := { s with
    formerTextInputData := data
    stillComposing := true
    resolved := false
    charInCompUpdate := [] }
  let s2 := if p.isIE then
      { s1 with offsetAtCompositionStart := some ((dom.anchorOffset : Int) - 1) }
    else s1
  let s3 := if p.isIE && data.length == 1 && !(isKorean (jsCharAt data 0)) then
      { s2 with
        nextToLastKoreanCharacter := []
        charInCompStart := data }
    else s2
  if !s3.nextToLastKoreanCharacter.isEmpty then
    { s3 with
      textInputData := s3.textInputData.dropLast ++ s3.nextToLastKoreanCharacter
      nextToLastKoreanCharacter := [] }
  else s3

/-- `onCompositionUpdate(e)`. -/
def onCompositionUpdate (p : Platform) (s : CompositionState) (data : JSString) :
    CompositionState :=
  if !data.isEmpty && isKorean (jsCharAt data 0) then
    { s with charInCompUpdate := data, isKoreanOnIE := p.isIE }
  else s

/-- `onCompositionEnd(e)`.  `startNodeText` is the current `textContent`
of the anchor node captured at composition start; `dom` is
`global.getSelection()` at the time of this event.  When
`offsetAtCompositionStart` is `null`, JavaScript coerces the index to `0`
in `content.charAt(i)` and the predecessor read `charAt(i - 1)` becomes
`charAt(-1) = ''`; `Option.getD 0` reproduces both. -/
def onCompositionEnd (p : Platform) (startNodeText : JSString)
    (dom : DomSelection) (s : CompositionState) (data : JSString) :
    CompositionState :=
  let s1 := { s with
    stillComposing := false
    lastKoreanCharacter := []
    nextToLastKoreanCharacter := [] }
  let s2 := if p.isIE && data.isEmpty then
      { s1 with
        textInputData := s1.textInputData ++
          (if !s1.charInCompStart.isEmpty then s1.charInCompStart
           else s1.charInCompUpdate)
        isKoreanOnIE := true }
    else s1
  let s3 := if p.isIE && !data.isEmpty && isKorean (jsCharAt data 0) then
      let content := if s2.charInCompUpdate.isEmpty then dom.anchorText
        else startNodeText
      let i : Int := if s2.charInCompUpdate.isEmpty then (dom.anchorOffset : Int) - 1
        else s2.offsetAtCompositionStart.getD 0
      if isKorean (jsCharAt content i) then
        { s2 with
          isKoreanOnIE := true
          lastKoreanCharacter := jsCharAt content i
          nextToLastKoreanCharacter := jsCharAt content (i - 1)
          textInputData := s2.textInputData ++ jsCharAt content i }
      else s2
    else s2
  let s4 := if p.isAndroid7 && !data.isEmpty && s3.textInputData.isEmpty then
      { s3 with textInputData := data }
    else s3
  { s4 with charInCompStart := [], charInCompUpdate := [] }

/-- The change kinds of the `commit` calls in an action list. -/
def commitKinds {Doc : Type} (acts : List (HostAction Doc)) : List String :=
  acts.filterMap fun a => match a with
    | HostAction.commit t _ => some t
    | _ => none

/-- The `(selection, direction)` arguments of the `removeRange` requests
in an action list. -/
def removeRequests {Doc : Type} (acts : List (HostAction Doc)) :
    List (Selection × String) :=
  acts.filterMap fun a => match a with
    | HostAction.removeRange sel dir => some (sel, dir)
    | _ => none

/-- The `(selection, text)` arguments of the `replaceText` requests in an
action list. -/
def replaceRequests {Doc : Type} (acts : List (HostAction Doc)) :
    List (Selection × JSString) :=
  acts.filterMap fun a => match a with
    | HostAction.replaceText sel chars _ _ => some (sel, chars)
    | _ => none

/-- The number of resync-only updates (`this.update(EditorState.set(…,
{nativelyRenderedContent: null, forceSelection: true}))`) in an action
list. -/
def resyncCount {Doc : Type} (acts : List (HostAction Doc)) : Nat :=
  acts.countP fun a => match a with
    | HostAction.resyncUpdate => true
    | _ => false

/-! ## Concrete fixtures used by witnesses and counterexamples -/

/-- The quirky platform: IE ≤ 11, not Edge, not Windows 10, not Android 7+. -/
def iePlatform : Platform := ⟨true, false, false, false⟩

/-- Document operations over `Nat` documents, used to evaluate runs. -/
def natOps : DocOps Nat :=
  { removeRange := fun d _ _ => d + 1
    getSelectionAfter := fun d => ⟨(d : Int), (d : Int), true⟩
    replaceText := fun d _ _ _ _ => d + 10 }

/-- Editor props over `Nat` documents: a collapsed selection at offset 5,
no style, no entity, not at a leaf start, no prior selection. -/
def natProps : EditorProps Nat :=
  { doc := 0
    selection := ⟨5, 5, true⟩
    currentStyle := []
    entityKey := none
    selectionAtLeafStart := false
    previousSelection := none }

/-! ## C4: commit change kinds -/

theorem commitKinds_resolveComposition {Doc : Type} (p : Platform)
    (ops : DocOps Doc) (props : EditorProps Doc) (s : CompositionState)
    (ct : String) :
    ∀ t ∈ commitKinds (resolveComposition p ops props s ct).2, t = ct := by
  intro t ht
  simp only [resolveComposition] at ht
  split_ifs at ht <;>
    simp_all [commitKinds, List.filterMap_append, List.filterMap_cons]

/-- C4 amended: every commit submitted through the deferred resolution
path (`setTimeout` → `resolveComposition('insert-characters')`) uses the
change kind `insert-characters`, while the blur path commits with
`commit-blurred-composition`. -/
theorem engine_commit_kinds {Doc : Type} (p : Platform) (ops : DocOps Doc)
    (props : EditorProps Doc) (s : CompositionState) :
    (∀ t ∈ commitKinds (fireDeferred p ops props s).2, t = "insert-characters") ∧
    (∀ t ∈ commitKinds (onBlur p ops props s).2, t = "commit-blurred-composition") := by
  constructor
  · intro t ht
    simp only [fireDeferred] at ht
    split_ifs at ht
    · exact commitKinds_resolveComposition p ops props s "insert-characters" t ht
    · simp [commitKinds] at ht
  · intro t ht
    simp only [onBlur, commitKinds, List.filterMap_cons] at ht
    exact commitKinds_resolveComposition p ops props _ "commit-blurred-composition" t ht

/-- C4 counterexample: with a non-empty buffer, the blur path commits
with change kind `commit-blurred-composition`, not `insert-characters`:
the engine does not use `insert-characters` on every commit. -/
theorem onBlur_commit_kind :
    commitKinds (onBlur iePlatform natOps natProps
        { CompositionState.init with textInputData := ['a'] }).2 =
      ["commit-blurred-composition"] ∧
    "commit-blurred-composition" ≠ "insert-characters" := by
  constructor
  · rfl
  · decide

/-- Witness for `engine_commit_kinds`: on a concrete run the deferred
path's only commit has kind `insert-characters`. -/
theorem engine_commit_kinds_witness :
    "insert-characters" ∈ commitKinds (fireDeferred iePlatform natOps natProps
        { CompositionState.init with textInputData := ['x'] }).2 ∧
    "insert-characters" = "insert-characters" :=
  ⟨by decide,
    (engine_commit_kinds iePlatform natOps natProps
        { CompositionState.init with textInputData := ['x'] }).1
      "insert-characters" (by decide)⟩

/-! ## C6: at-most-once resolution -/

theorem resolveComposition_sets_resolved {Doc : Type} (p : Platform)
    (ops : DocOps Doc) (props : EditorProps Doc) (s : CompositionState)
    (ct : String) (hsc : s.stillComposing = false) :
    (resolveComposition p ops props s ct).1.resolved = true := by
  simp only [resolveComposition, hsc]
  split_ifs <;> simp_all

theorem commitKinds_resolveComposition_nonempty {Doc : Type} (p : Platform)
    (ops : DocOps Doc) (props : EditorProps Doc) (s : CompositionState)
    (ct : String) (hsc : s.stillComposing = false)
    (hb : s.textInputData.isEmpty = false) :
    commitKinds (resolveComposition p ops props s ct).2 = [ct] := by
  simp only [resolveComposition, hsc, hb]
  split_ifs <;>
    simp_all [commitKinds, List.filterMap_append, List.filterMap_cons]

/-- C6: for a session that is no longer composing and not yet resolved
(two SessionEnd events with no intervening SessionStart leave the state
exactly so) and has committed text, the two deferred resolution firings
together produce exactly one commit: the first firing performs the
resolve and sets the `resolved` flag, and the second firing is a no-op. -/
theorem double_fire_single_commit {Doc : Type} (p : Platform) (ops : DocOps Doc)
    (props : EditorProps Doc) (s : CompositionState)
    (hsc : s.stillComposing = false) (hr : s.resolved = false)
    (hb : s.textInputData.isEmpty = false) :
    commitKinds ((fireDeferred p ops props s).2 ++
        (fireDeferred p ops props (fireDeferred p ops props s).1).2) =
      ["insert-characters"] ∧
    (fireDeferred p ops props (fireDeferred p ops props s).1).2 = [] := by
  have h1 : fireDeferred p ops props s =
      resolveComposition p ops props s "insert-characters" := by
    simp [fireDeferred, hr]
  have hres : (fireDeferred p ops props s).1.resolved = true := by
    rw [h1]
    exact resolveComposition_sets_resolved p ops props s _ hsc
  have hgen : ∀ s2 : CompositionState, s2.resolved = true →
      (fireDeferred p ops props s2).2 = [] := by
    intro s2 h
    simp [fireDeferred, h]
  have h2 : (fireDeferred p ops props (fireDeferred p ops props s).1).2 = [] :=
    hgen _ hres
  refine ⟨?_, h2⟩
  rw [h2, List.append_nil, h1]
  exact commitKinds_resolveComposition_nonempty p ops props s _ hsc hb

/-- Witness for `double_fire_single_commit` on a concrete non-empty
buffer. -/
theorem double_fire_single_commit_witness :
    commitKinds ((fireDeferred iePlatform natOps natProps
        { CompositionState.init with textInputData := ['x'] }).2 ++
      (fireDeferred iePlatform natOps natProps
        (fireDeferred iePlatform natOps natProps
          { CompositionState.init with textInputData := ['x'] }).1).2) =
      ["insert-characters"] ∧
    (fireDeferred iePlatform natOps natProps
      (fireDeferred iePlatform natOps natProps
        { CompositionState.init with textInputData := ['x'] }).1).2 = [] :=
  double_fire_single_commit iePlatform natOps natProps
    { CompositionState.init with textInputData := ['x'] }
    (by decide) (by decide) (by decide)

/-! ## C8: empty-buffer resolution -/

/-- C8: a resolution that proceeds (the session is no longer composing)
with an empty buffer performs zero `replaceText` calls and exactly one
resync-only update; `mustReset` is necessarily true there, being a
disjunction whose first disjunct is buffer emptiness. -/
theorem resolve_empty_buffer {Doc : Type} (p : Platform) (ops : DocOps Doc)
    (props : EditorProps Doc) (s : CompositionState) (ct : String)
    (hsc : s.stillComposing = false) (hb : s.textInputData = []) :
    replaceRequests (resolveComposition p ops props s ct).2 = [] ∧
    resyncCount (resolveComposition p ops props s ct).2 = 1 ∧
    mustResetFlag props s.textInputData = true := by
  have hm : mustResetFlag props s.textInputData = true := by
    simp [mustResetFlag, hb]
  refine ⟨?_, ?_, hm⟩ <;>
  · simp only [resolveComposition, hsc, hb]
    split_ifs <;>
      simp_all [replaceRequests, resyncCount, mustResetFlag,
        List.filterMap_append, List.filterMap_cons,
        List.countP_append, List.countP_cons]

/-- Witness for `resolve_empty_buffer` at the initial (empty-buffer)
state. -/
theorem resolve_empty_buffer_witness :
    replaceRequests (resolveComposition iePlatform natOps natProps
        CompositionState.init "insert-characters").2 = [] ∧
    resyncCount (resolveComposition iePlatform natOps natProps
        CompositionState.init "insert-characters").2 = 1 ∧
    mustResetFlag natProps CompositionState.init.textInputData = true :=
  resolve_empty_buffer iePlatform natOps natProps CompositionState.init
    "insert-characters" (by decide) (by decide)

/-! ## C7: the backward-removal step of Resolve -/

/-- C7: during a resolution that proceeds, the backward-removal request
is issued iff the quirk-continuation path was not taken
(`wasKoreanOnIE` false), the previous session's text is non-empty, and
the current selection is collapsed.  The single removal request is the
current selection with its anchor moved back by the length of the former
text, clamped at zero, with direction `backward`; and when text is then
committed, the replacement targets the post-removal selection reported
by the document model. -/
theorem resolve_removal_span {Doc : Type} (p : Platform) (ops : DocOps Doc)
    (props : EditorProps Doc) (s : CompositionState) (ct : String)
    (hsc : s.stillComposing = false) :
    (removeRequests (resolveComposition p ops props s ct).2 ≠ [] ↔
      (s.isKoreanOnIE = false ∧ s.formerTextInputData ≠ [] ∧
        props.selection.collapsed = true)) ∧
    (s.isKoreanOnIE = false → s.formerTextInputData ≠ [] →
      props.selection.collapsed = true →
      (removeRequests (resolveComposition p ops props s ct).2 =
        [({ props.selection with anchorOffset :=
              if props.selection.anchorOffset - (s.formerTextInputData.length : Int) < 0
              then 0
              else props.selection.anchorOffset - (s.formerTextInputData.length : Int) },
          "backward")] ∧
        (s.textInputData ≠ [] →
          replaceRequests (resolveComposition p ops props s ct).2 =
            [(ops.getSelectionAfter (ops.removeRange props.doc
                { props.selection with anchorOffset :=
                    if props.selection.anchorOffset -
                        (s.formerTextInputData.length : Int) < 0
                    then 0
                    else props.selection.anchorOffset -
                        (s.formerTextInputData.length : Int) }
                "backward"),
              s.textInputData)]))) := by
  simp only [resolveComposition, hsc]
  split_ifs <;>
    simp_all [removeRequests, replaceRequests,
      List.filterMap_append, List.filterMap_cons,
      List.isEmpty_iff, Bool.and_eq_true, Bool.not_eq_true']

/-- Witness for `resolve_removal_span`: with former text `"f"`, buffer
`"x"`, no quirk, collapsed selection at offset 5, the resolution issues
one backward removal with the anchor moved to 4 and replaces at the
post-removal selection reported by the model. -/
theorem resolve_removal_span_witness :
    removeRequests (resolveComposition iePlatform natOps natProps
        { CompositionState.init with textInputData := ['x'], formerTextInputData := ['f'] }
        "insert-characters").2 =
      [(⟨4, 5, true⟩, "backward")] ∧
    replaceRequests (resolveComposition iePlatform natOps natProps
        { CompositionState.init with textInputData := ['x'], formerTextInputData := ['f'] }
        "insert-characters").2 =
      [(⟨1, 1, true⟩, ['x'])] := by
  have h := (resolve_removal_span iePlatform natOps natProps
      { CompositionState.init with textInputData := ['x'], formerTextInputData := ['f'] }
      "insert-characters" (by decide)).2 (by decide) (by decide) (by decide)
  refine ⟨?_, ?_⟩
  · rw [h.1]
    decide
  · rw [h.2 (by decide)]
    decide

/-! ## C5: SessionEnd recovery reads a single position, it does not scan -/

/-- C5 counterexample: on the quirky platform, with SessionEnd data
beginning with a composing-script character and no update-phase
character recorded, the engine inspects only the single rendered
character one before the DOM anchor offset (position 1, holding the
non-composing `'A'`) and leaves the buffer unchanged — even though a
composing-script character (`'여'`) exists earlier at position 0, at or
before the scanned-from position.  There is no backward scan. -/
theorem onCompositionEnd_no_scan :
    (onCompositionEnd iePlatform [] ⟨['여', 'A'], 2⟩
        CompositionState.init ['열']).textInputData = [] ∧
    isKorean (jsCharAt ['여', 'A'] 0) = true ∧
    isKorean (jsCharAt ['여', 'A'] 1) = false := by decide

/-- C5 amended: on the quirky platform, when the SessionEnd data begins
with a composing-script character, the engine examines only the single
rendered character at one position — the offset captured at composition
start when an update-phase character was recorded, otherwise one before
the current DOM anchor offset.  If that character is composing-script it
is appended to the buffer and its immediate predecessor is retained as
the continuation character; otherwise the buffer is left unchanged, even
when a composing-script character exists earlier in the text. -/
theorem onCompositionEnd_single_position (p : Platform)
    (startNodeText : JSString) (dom : DomSelection) (s : CompositionState)
    (data : JSString) (content : JSString) (i : Int)
    (hIE : p.isIE = true) (hA : p.isAndroid7 = false)
    (hdata : data.isEmpty = false) (hk : isKorean (jsCharAt data 0) = true)
    (hcontent : content =
      if s.charInCompUpdate.isEmpty then dom.anchorText else startNodeText)
    (hi : i = if s.charInCompUpdate.isEmpty then (dom.anchorOffset : Int) - 1
      else s.offsetAtCompositionStart.getD 0) :
    (isKorean (jsCharAt content i) = true →
      (onCompositionEnd p startNodeText dom s data).textInputData =
        s.textInputData ++ jsCharAt content i ∧
      (onCompositionEnd p startNodeText dom s data).lastKoreanCharacter =
        jsCharAt content i ∧
      (onCompositionEnd p startNodeText dom s data).nextToLastKoreanCharacter =
        jsCharAt content (i - 1) ∧
      (onCompositionEnd p startNodeText dom s data).isKoreanOnIE = true) ∧
    (isKorean (jsCharAt content i) = false →
      (onCompositionEnd p startNodeText dom s data).textInputData =
        s.textInputData ∧
      (onCompositionEnd p startNodeText dom s data).lastKoreanCharacter = []) := by
  subst hcontent hi
  constructor <;> intro hfound <;>
    simp_all [onCompositionEnd]

/-- Witness for `onCompositionEnd_single_position`: the found case at a
concrete input, where the single checked position holds `'여'`. -/
theorem onCompositionEnd_single_position_witness :
    (onCompositionEnd iePlatform [] ⟨['여'], 1⟩
        CompositionState.init ['열']).textInputData =
      CompositionState.init.textInputData ++ jsCharAt ['여'] (0 : Int) ∧
    (onCompositionEnd iePlatform [] ⟨['여'], 1⟩
        CompositionState.init ['열']).lastKoreanCharacter =
      jsCharAt ['여'] (0 : Int) ∧
    (onCompositionEnd iePlatform [] ⟨['여'], 1⟩
        CompositionState.init ['열']).nextToLastKoreanCharacter =
      jsCharAt ['여'] ((0 : Int) - 1) ∧
    (onCompositionEnd iePlatform [] ⟨['여'], 1⟩
        CompositionState.init ['열']).isKoreanOnIE = true :=
  (onCompositionEnd_single_position iePlatform [] ⟨['여'], 1⟩
      CompositionState.init ['열'] ['여'] 0 rfl rfl (by decide) (by decide)
      (by decide) (by decide)).1 (by decide)

/-! ## C9: continuation across a session boundary -/

/-- The reference run, first half: on the quirky platform, a session
starts (captured anchor offset 2), an update reports `'열'`, and the
session ends with data `'열'` while the captured node renders `"여열"` —
the engine commits `'열'` to the buffer and retains `'여'`. -/
def yeoreumAfterFirstEnd : CompositionState :=
  onCompositionEnd iePlatform ['여', '열'] ⟨[], 0⟩
    (onCompositionUpdate iePlatform
      (onCompositionStart iePlatform ⟨[], 2⟩ CompositionState.init []) ['열'])
    ['열']

/-- The reference run after the continuation SessionStart with data
`'르'` arrives before resolution. -/
def yeoreumAfterRestart : CompositionState :=
  onCompositionStart iePlatform ⟨[], 2⟩ yeoreumAfterFirstEnd ['르']

/-- The reference run completed: an update `'름'`, a final SessionEnd
with the captured node rendering `"여름"`, and the deferred resolution. -/
def yeoreumRun : CompositionState × List (HostAction Nat) :=
  fireDeferred iePlatform natOps natProps
    (onCompositionEnd iePlatform ['여', '름'] ⟨[], 0⟩
      (onCompositionUpdate iePlatform yeoreumAfterRestart ['름']) ['름'])

/-- C9 counterexample: on the quirky platform, a SessionStart whose data
is a single non-composing character clears the retained continuation
character *before* the continuation check runs, so the buffer keeps its
trailing character and no substitution happens — the claim's
unconditional "replaces the last character of the buffer" fails here. -/
theorem sessionStart_continuation_dropped :
    (onCompositionStart iePlatform ⟨[], 2⟩ { CompositionState.init with textInputData := ['열'], nextToLastKoreanCharacter := ['여'] } ['a']).textInputData = ['열'] ∧
    (onCompositionStart iePlatform ⟨[], 2⟩ { CompositionState.init with textInputData := ['열'], nextToLastKoreanCharacter := ['여'] } ['a']).nextToLastKoreanCharacter = [] := by
  decide

/-- C9 amended: when a SessionStart arrives while a continuation
character is retained — except on the quirky platform when the start
data is exactly one non-composing character, which discards the retained
value instead — the engine replaces the last character of the buffer
with the retained character and clears it; and in the reference
scenario the first SessionEnd commits `'열'` retaining `'여'`, the
restart rewrites the buffer to `"여"`, and the final SessionEnd resolves
to a single `insert-characters` commit replacing with `"여름"`. -/
theorem sessionStart_continuation :
    (∀ (p : Platform) (dom : DomSelection) (s : CompositionState)
        (data : JSString),
      s.nextToLastKoreanCharacter ≠ [] →
      ¬(p.isIE = true ∧ data.length = 1 ∧ isKorean (jsCharAt data 0) = false) →
      (onCompositionStart p dom s data).textInputData =
        s.textInputData.dropLast ++ s.nextToLastKoreanCharacter ∧
      (onCompositionStart p dom s data).nextToLastKoreanCharacter = []) ∧
    (yeoreumAfterFirstEnd.textInputData = ['열'] ∧
     yeoreumAfterFirstEnd.nextToLastKoreanCharacter = ['여'] ∧
     yeoreumAfterRestart.textInputData = ['여'] ∧
     commitKinds yeoreumRun.2 = ["insert-characters"] ∧
     replaceRequests yeoreumRun.2 = [(natProps.selection, ['여', '름'])]) := by
  constructor
  · intro p dom s data hn hq
    simp only [onCompositionStart]
    split_ifs <;>
      simp_all [List.isEmpty_iff, Bool.and_eq_true, Bool.not_eq_true',
        beq_iff_eq]
  · refine ⟨by decide, by decide, by decide, by decide, by decide⟩

/-- Witness for `sessionStart_continuation` at a concrete continuation
input (`data = "르"`, retained `'여'`, buffer `"열"`). -/
theorem sessionStart_continuation_witness :
    (onCompositionStart iePlatform ⟨[], 2⟩ { CompositionState.init with textInputData := ['열'], nextToLastKoreanCharacter := ['여'] } ['르']).textInputData =
      ({ CompositionState.init with textInputData := ['열'], nextToLastKoreanCharacter := ['여'] } : CompositionState).textInputData.dropLast ++
      ({ CompositionState.init with textInputData := ['열'], nextToLastKoreanCharacter := ['여'] } : CompositionState).nextToLastKoreanCharacter ∧
    (onCompositionStart iePlatform ⟨[], 2⟩ { CompositionState.init with textInputData := ['열'], nextToLastKoreanCharacter := ['여'] } ['르']).nextToLastKoreanCharacter = [] :=
  sessionStart_continuation.1 iePlatform ⟨[], 2⟩
    { CompositionState.init with textInputData := ['열'], nextToLastKoreanCharacter := ['여'] }
    ['르'] (by decide) (by decide)
